import Mathlib

/-!
# Verification of the StorageAPI chunked/array storage layer

Shallow embedding of `src/storage/property-storage.ts`,
`src/storage/extended-storage.ts`, `src/storage/cached-storage.ts` and
`src/storage/multi-array.ts`.

JavaScript strings are modelled as lists of UTF-16 code units (`Str := List Nat`).
The flat dynamic-property backend is an association list from keys to stored
string values; all writes performed by the library go through
`PropertyStorage.set`, which serializes to a string first, so every stored
value is a string.  Serialized JSON text of the two index-record shapes
(`Index` and `ArrayIndex`) is carried structurally in `SVal` (with its literal
text recoverable via `svalText`); `JSON.parse(JSON.stringify(r))` is the
identity on these plain records, which is what the structural representation
encodes.  Thrown `TypeError`/`Error` exceptions are modelled with `Except`.
-/

/-- A JavaScript string: its list of UTF-16 code units. -/
abbrev Str := List Nat

/-- Code units of a Lean string literal (all our literals are ASCII). -/
def su (s : String) : Str := s.data.map Char.toNat

/-- Little-endian base-10 digits of `n`, computed with explicit fuel so the
definition reduces in the kernel; agrees with `Nat.digits 10` (see
`natDigitsAux_eq_digits`). -/
def natDigitsAux : Nat → Nat → List Nat
  | 0, _ => []
  | _ + 1, 0 => []
  | fuel + 1, n + 1 => ((n + 1) % 10) :: natDigitsAux fuel ((n + 1) / 10)

/-- Decimal rendering of a natural number, as JS `String(n)` produces
(digit code units, most significant first). -/
def natStr (n : Nat) : Str :=
  if n = 0 then [48] else ((natDigitsAux n n).map (· + 48)).reverse

/-- Decimal rendering of an integer, as JS `String(i)` produces. -/
def intStr (i : Int) : Str :=
  if i < 0 then 45 :: natStr i.natAbs else natStr i.toNat

/-- The `key + ".index"` sub-key used by `setIndex`/`getIndex`/`getArrayIndex`. -/
def indexKey (k : Str) : Str := k ++ su ".index"

/-- The `key + "." + i` sub-key holding the i-th chunk of a chunked value. -/
def chunkKey (k : Str) (i : Nat) : Str := k ++ (46 :: natStr i)

/-- The `key + ".ar." + i` sub-key holding the value of array slot `i`. -/
def slotKey (k : Str) (i : Int) : Str := k ++ (su ".ar." ++ intStr i)

/-- The marker key written by `ExtendedStorage.initStorage`. -/
def shapeKey : Str := su "shape_extended_storage"

/-- Digit test: `48 ≤ c ≤ 57`: the code unit is a decimal digit (regex `\d`). -/
def isDigitCU (c : Nat) : Bool := 48 ≤ c && c ≤ 57

/-- The test `/\.\d+$/.test(key)` from `ExtendedStorage.set`/`get`: the key
ends in a dot followed by one or more decimal digits. -/
def endsInDotNum (k : Str) : Bool :=
  let r := k.reverse
  let ds := r.takeWhile isDigitCU
  decide (ds ≠ []) && decide ((r.drop ds.length).head? = some 46)

/-! ## Chunk codec (`PropertyStorage.encodeValue`, `ExtendedStorage.splitValueIntoChunks`)

`encodeValue` computes `decodeURIComponent(encodeURIComponent(value))` — the
identity on strings — and then fills a `Uint8Array` with `charCodeAt` of every
position; `Uint8Array` assignment truncates to 8 bits, i.e. takes the code
unit mod 256. -/

/-- Model of `PropertyStorage.encodeValue` restricted to its string input (the only
input the library passes to it): UTF-16 code units truncated mod 256. -/
def encodeValue (s : Str) : List Nat := s.map (· % 256)

/-- Is `b` a UTF-8 continuation byte (`0x80..0xBF`)? -/
def isCont (b : Nat) : Bool := 128 ≤ b && b ≤ 191

/-- WHATWG `TextDecoder` for UTF-8 in replacement mode (`fatal: false`):
decodes a byte list to UTF-16 code units, emitting U+FFFD (65533) for
malformed sequences; code points above U+FFFF become surrogate pairs. -/
def utf8DecodeF : Nat → List Nat → List Nat
  | _, [] => []
  | 0, _ :: _ => []
  | fuel + 1, b :: rest =>
    if b ≤ 127 then b :: utf8DecodeF fuel rest
    else if 194 ≤ b && b ≤ 223 then
      match rest with
      | [] => [65533]
      | b2 :: rest2 =>
        if isCont b2 then ((b - 192) * 64 + (b2 - 128)) :: utf8DecodeF fuel rest2
        else 65533 :: utf8DecodeF fuel (b2 :: rest2)
    else if 224 ≤ b && b ≤ 239 then
      match rest with
      | [] => [65533]
      | b2 :: rest2 =>
        if (if b = 224 then 160 else 128) ≤ b2 && b2 ≤ (if b = 237 then 159 else 191) then
          match rest2 with
          | [] => [65533]
          | b3 :: rest3 =>
            if isCont b3 then
              ((b - 224) * 4096 + (b2 - 128) * 64 + (b3 - 128)) :: utf8DecodeF fuel rest3
            else 65533 :: utf8DecodeF fuel (b3 :: rest3)
        else 65533 :: utf8DecodeF fuel (b2 :: rest2)
    else if 240 ≤ b && b ≤ 244 then
      match rest with
      | [] => [65533]
      | b2 :: rest2 =>
        if (if b = 240 then 144 else 128) ≤ b2 && b2 ≤ (if b = 244 then 143 else 191) then
          match rest2 with
          | [] => [65533]
          | b3 :: rest3 =>
            if isCont b3 then
              match rest3 with
              | [] => [65533]
              | b4 :: rest4 =>
                if isCont b4 then
                  (55296 + (((b - 240) * 262144 + (b2 - 128) * 4096 +
                      (b3 - 128) * 64 + (b4 - 128)) - 65536) / 1024) ::
                    (56320 + (((b - 240) * 262144 + (b2 - 128) * 4096 +
                      (b3 - 128) * 64 + (b4 - 128)) - 65536) % 1024) ::
                    utf8DecodeF fuel rest4
                else 65533 :: utf8DecodeF fuel (b4 :: rest4)
            else 65533 :: utf8DecodeF fuel (b3 :: rest3)
        else 65533 :: utf8DecodeF fuel (b2 :: rest2)
    else 65533 :: utf8DecodeF fuel rest

/-- Model of `TextDecoder('utf-8').decode` on a byte list (fuel instantiated so that
it never runs out: each step consumes at least one byte). -/
def utf8Decode (l : List Nat) : List Nat := utf8DecodeF l.length l

/-- Greedy slicing of a byte list into pieces of `size` bytes (the last piece
holds the remainder), with explicit fuel for kernel reducibility.  This is
the source's `while (offset < encodedInput.length)` loop; a `chunkSize` of
`0` would make that loop spin forever, so the model is only meaningful for
`size > 0` (every call site uses a positive size). -/
def chunksOfF (size : Nat) : Nat → List Nat → List (List Nat)
  | _, [] => []
  | 0, _ :: _ => []
  | fuel + 1, a :: l =>
    if size = 0 then []
    else (a :: l).take size :: chunksOfF size fuel ((a :: l).drop size)

/-- Slicing into `size`-byte pieces (fuel instantiated so it never runs out:
each step consumes at least one byte). -/
def chunksOf (size : Nat) (l : List Nat) : List (List Nat) := chunksOfF size l.length l

/-- Model of `ExtendedStorage.splitValueIntoChunks` on its string input: encode, slice
into `chunkSize`-byte pieces, and decode each piece with a fresh
`TextDecoder` (UTF-8). -/
def splitValueIntoChunks (input : Str) (chunkSize : Nat) : List Str :=
  (chunksOf chunkSize (encodeValue input)).map utf8Decode

/-- Model of `PropertyStorage.MAX_BYTE_SIZE = 32 * 1024 - 1`, the default chunk size. -/
def MAX_BYTE_SIZE : Nat := 32 * 1024 - 1


/-! ## Data model: JS values, stored strings, the flat backend

`Index` is `{ max: number }`; `ArrayIndex` is `{ start, end: number }` plus a
map from integer slots to `SubIndex = { prev, next: number | null }`
(`src/storage/extended-storage.ts`, bottom).  `end` is a Lean keyword, so the
field is called `end_`. -/

/-- Model of `SubIndex`: previous/next slot of an array element (`null` = `none`). -/
structure SubIdx where
  prev : Option Int
  next : Option Int
deriving DecidableEq

/-- Model of `ArrayIndex`: `start`, `end` and the integer-keyed link records. -/
structure ArrIdx where
  start : Int
  end_ : Int
  links : List (Int × SubIdx)
deriving DecidableEq

/-- A JavaScript value, as far as the library manipulates them. -/
inductive JSVal where
  | undefined
  | null
  | bool (b : Bool)
  | num (n : Int)
  | str (s : Str)
  | indexRec (max : Int)
  | arrIdxRec (a : ArrIdx)
deriving DecidableEq

/-- A stored backend value.  Every write the library performs goes through
`PropertyStorage.set`, which serializes to a string first, so stored values
are strings; the JSON text of the two record shapes is carried structurally
(its literal text is `svalText`), since `JSON.parse(JSON.stringify(r))` is
the identity on these plain records. -/
inductive SVal where
  | raw (s : Str)
  | jsonIndex (max : Int)
  | jsonArrIdx (a : ArrIdx)
deriving DecidableEq

/-- JS truthiness of a value. -/
def JSVal.truthy : JSVal → Bool
  | .undefined => false
  | .null => false
  | .bool b => b
  | .num n => n != 0
  | .str s => s != []
  | .indexRec _ => true
  | .arrIdxRec _ => true

/-- JS property access `v.max` (`undefined` on values without the field). -/
def JSVal.maxF : JSVal → JSVal
  | .indexRec m => .num m
  | _ => .undefined

/-- JS property access `v.start`. -/
def JSVal.startF : JSVal → JSVal
  | .arrIdxRec a => .num a.start
  | _ => .undefined

/-- JS property access `v.end`. -/
def JSVal.endF : JSVal → JSVal
  | .arrIdxRec a => .num a.end_
  | _ => .undefined

/-- Model of `String(i)` for `number | null` fields inside JSON text. -/
def optIntText : Option Int → Str
  | none => su "null"
  | some i => intStr i

/-- Model of `JSON.stringify` of a `SubIndex` record. -/
def subIdxText (s : SubIdx) : Str :=
  [123] ++ su "\"prev\":" ++ optIntText s.prev ++ su ",\"next\":" ++ optIntText s.next ++ [125]

/-- Model of `JSON.stringify` of an `ArrayIndex` record.  (JS enumerates integer-like
keys first, in ascending numeric order; the operations of this library only
produce the link entries in that order, and no modelled code path inspects
this text.) -/
def arrIdxText (a : ArrIdx) : Str :=
  [123] ++
    (a.links.foldr (fun p acc =>
      [34] ++ intStr p.1 ++ su "\":" ++ subIdxText p.2 ++ [44] ++ acc) []) ++
    su "\"start\":" ++ intStr a.start ++ su ",\"end\":" ++ intStr a.end_ ++ [125]

/-- Model of `JSON.stringify` of an `Index` record (`{"max":M}`). -/
def jsonIndexText (m : Int) : Str :=
  [123] ++ su "\"max\":" ++ intStr m ++ [125]

/-- The literal text of a stored string. -/
def svalText : SVal → Str
  | .raw s => s
  | .jsonIndex m => jsonIndexText m
  | .jsonArrIdx a => arrIdxText a

/-- Model of `PropertyStorage.serialize`: strings pass through unchanged, everything
else goes through `JSON.stringify`; `JSON.stringify(undefined)` is
`undefined` (`none`), which makes `setDynamicProperty` delete the key. -/
def serialize : JSVal → Option SVal
  | .undefined => none
  | .null => some (.raw (su "null"))
  | .bool true => some (.raw (su "true"))
  | .bool false => some (.raw (su "false"))
  | .num n => some (.raw (intStr n))
  | .str s => some (.raw s)
  | .indexRec m => some (.jsonIndex m)
  | .arrIdxRec a => some (.jsonArrIdx a)

/-- The string `this.serialize(value)` produces (only queried on values that
serialize to a string, i.e. everything but `undefined`). -/
def serializeText (v : JSVal) : Str :=
  match serialize v with
  | some sv => svalText sv
  | none => []

/-- Parse a digit string with no redundant leading zero (JSON number syntax,
integer fragment). -/
def parseNatNoLead (l : Str) : Option Nat :=
  if l ≠ [] ∧ l.all isDigitCU ∧ (l = [48] ∨ l.head? ≠ some 48) then
    some (l.foldl (fun acc c => acc * 10 + (c - 48)) 0)
  else none

/-- Parse a JSON integer literal (optional leading minus). -/
def parseJSONInt : Str → Option Int
  | 45 :: rest => (parseNatNoLead rest).map (fun n => -(n : Int))
  | s => (parseNatNoLead s).map (fun n => (n : Int))

/-! ### The JSON grammar (ECMA-404, as accepted by `JSON.parse`)

`jsonAccepts` below is a faithful recognizer of the full grammar — objects,
arrays, quoted strings with escapes, numbers with fraction/exponent, and
insignificant whitespace.  It decides exactly whether `JSON.parse` throws,
which is what the `deserialize` fallback hinges on; theorems quantifying
over strings outside the value-producing fragment carry a
`jsonAccepts _ = false` hypothesis so their region never leaves the inputs
on which the model agrees with `JSON.parse`. -/

/-- Skips JSON insignificant whitespace (space, tab, LF, CR). -/
def jsonWs : List Nat → List Nat
  | c :: r => if c = 32 ∨ c = 9 ∨ c = 10 ∨ c = 13 then jsonWs r else c :: r
  | [] => []

/-- Strips leading and trailing JSON whitespace. -/
def trimWs (s : Str) : Str := (jsonWs (jsonWs s).reverse).reverse

/-- Skips a (possibly empty) run of decimal digits. -/
def skipDigits : List Nat → List Nat
  | c :: r => if isDigitCU c then skipDigits r else c :: r
  | [] => []

/-- Value of a hexadecimal digit code unit. -/
def hexVal (c : Nat) : Option Nat :=
  if 48 ≤ c ∧ c ≤ 57 then some (c - 48)
  else if 65 ≤ c ∧ c ≤ 70 then some (c - 55)
  else if 97 ≤ c ∧ c ≤ 102 then some (c - 87)
  else none

/-- Parses a JSON string body (the input starts right after the opening
quote): returns the unescaped content and the rest of the input after the
closing quote.  Escapes are the JSON set `\" \\ \/ \b \f \n \r \t \uXXXX`;
unescaped control characters below 0x20 are rejected.  Consumes at least one
code unit per step, so fuel `length + 1` never runs out. -/
def parseQuoted : Nat → List Nat → Option (Str × List Nat)
  | 0, _ => none
  | _ + 1, [] => none
  | fuel + 1, c :: r =>
    if c = 34 then some ([], r)
    else if c = 92 then
      match r with
      | [] => none
      | e :: r2 =>
        if e = 34 ∨ e = 92 ∨ e = 47 then
          (parseQuoted fuel r2).map (fun p => (e :: p.1, p.2))
        else if e = 98 then (parseQuoted fuel r2).map (fun p => (8 :: p.1, p.2))
        else if e = 102 then (parseQuoted fuel r2).map (fun p => (12 :: p.1, p.2))
        else if e = 110 then (parseQuoted fuel r2).map (fun p => (10 :: p.1, p.2))
        else if e = 114 then (parseQuoted fuel r2).map (fun p => (13 :: p.1, p.2))
        else if e = 116 then (parseQuoted fuel r2).map (fun p => (9 :: p.1, p.2))
        else if e = 117 then
          match r2 with
          | h1 :: h2 :: h3 :: h4 :: r3 =>
            match hexVal h1, hexVal h2, hexVal h3, hexVal h4 with
            | some a, some b, some c2, some d =>
              (parseQuoted fuel r3).map
                (fun p => ((a * 4096 + b * 256 + c2 * 16 + d) :: p.1, p.2))
            | _, _, _, _ => none
          | _ => none
        else none
    else if c < 32 then none
    else (parseQuoted fuel r).map (fun p => (c :: p.1, p.2))

/-- Recognizes a JSON number (`-? int frac? exp?` with no leading zeros),
returning the rest of the input. -/
def jsonNumber (l : List Nat) : Option (List Nat) :=
  let l1 := match l with | 45 :: r => r | _ => l
  let intRes : Option (List Nat) :=
    match l1 with
    | [] => none
    | c :: r =>
      if c = 48 then some r
      else if 49 ≤ c ∧ c ≤ 57 then some (skipDigits r)
      else none
  match intRes with
  | none => none
  | some l2 =>
    let fracRes : Option (List Nat) :=
      match l2 with
      | 46 :: rest =>
        (match rest with
        | c :: r => if isDigitCU c then some (skipDigits r) else none
        | [] => none)
      | _ => some l2
    match fracRes with
    | none => none
    | some l4 =>
      match l4 with
      | e :: rest =>
        if e = 101 ∨ e = 69 then
          let rest2 := match rest with
            | s2 :: r => if s2 = 43 ∨ s2 = 45 then r else s2 :: r
            | [] => []
          match rest2 with
          | c :: r => if isDigitCU c then some (skipDigits r) else none
          | [] => none
        else some l4
      | [] => some l4

/-- Recognizer for JSON values/object-members/array-elements (mode 0/1/2),
consuming the construct and returning the rest of the input.  One fueled
function instead of a mutual block so that it reduces in the kernel; every
fuel decrement accompanies input progress (a value descends past its opening
bracket; each member/element iteration consumes its text), so the
`2·length + 2` fuel `jsonAccepts` supplies never runs out on accepted
input. -/
def jsonRun : Nat → Nat → List Nat → Option (List Nat)
  | 0, _, _ => none
  | fuel + 1, 0, l =>
    match l with
    | 34 :: r => (parseQuoted (r.length + 1) r).map (fun p => p.2)
    | 123 :: r =>
      (match jsonWs r with
      | 125 :: r2 => some r2
      | r1 => jsonRun fuel 1 r1)
    | 91 :: r =>
      (match jsonWs r with
      | 93 :: r2 => some r2
      | r1 => jsonRun fuel 2 r1)
    | 116 :: 114 :: 117 :: 101 :: r => some r
    | 102 :: 97 :: 108 :: 115 :: 101 :: r => some r
    | 110 :: 117 :: 108 :: 108 :: r => some r
    | l2 => jsonNumber l2
  | fuel + 1, 1, l =>
    match l with
    | 34 :: r =>
      (match parseQuoted (r.length + 1) r with
      | none => none
      | some p =>
        match jsonWs p.2 with
        | 58 :: r3 =>
          (match jsonRun fuel 0 (jsonWs r3) with
          | none => none
          | some r4 =>
            match jsonWs r4 with
            | 44 :: r5 => jsonRun fuel 1 (jsonWs r5)
            | 125 :: r5 => some r5
            | _ => none)
        | _ => none)
    | _ => none
  | fuel + 1, 2, l =>
    (match jsonRun fuel 0 l with
    | none => none
    | some r =>
      match jsonWs r with
      | 44 :: r2 => jsonRun fuel 2 (jsonWs r2)
      | 93 :: r2 => some r2
      | _ => none)
  | _ + 1, _ + 3, _ => none

/-- Decides whether `JSON.parse` accepts the string: one JSON value
surrounded by optional whitespace, consuming the whole input. -/
def jsonAccepts (s : Str) : Bool :=
  match jsonRun (2 * s.length + 2) 0 (jsonWs s) with
  | some r => decide (jsonWs r = [])
  | none => false

/-- Model of `JSON.parse` restricted to the value-producing fragment:
whitespace-trimmed `null`, booleans, integer literals, and quoted strings
(with full escape handling).  On these inputs it returns exactly what
`JSON.parse` returns, and it returns `some` only on grammar-accepted input.
Non-integer numbers, arrays and objects are outside the modelled value
domain and yield `none`; every theorem whose quantified region could contain
such an accepted-but-unmodelled string excludes it with a
`jsonAccepts _ = false` (or `parseJSON _ = some _`) hypothesis. -/
def parseJSON (s : Str) : Option JSVal :=
  let t := trimWs s
  if t = su "null" then some .null
  else if t = su "true" then some (.bool true)
  else if t = su "false" then some (.bool false)
  else
    match t with
    | 34 :: r =>
      (match parseQuoted (r.length + 1) r with
      | some (content, []) => some (.str content)
      | _ => none)
    | _ => (parseJSONInt t).map .num

/-- Model of `PropertyStorage.deserialize`: `JSON.parse`, falling back to
the raw string when parsing throws.  Exact whenever the input is in
`parseJSON`'s fragment or is rejected by the JSON grammar
(`jsonAccepts _ = false`, where `JSON.parse` throws and the `catch` returns
the raw string); theorem hypotheses keep every quantified region inside
those inputs. -/
def jsDeserialize (s : Str) : JSVal :=
  (parseJSON s).getD (.str s)

/-- Deserializing a stored value (`JSON.parse ∘ svalText`, with fallback). -/
def deserializeS : SVal → JSVal
  | .raw s => jsDeserialize s
  | .jsonIndex m => .indexRec m
  | .jsonArrIdx a => .arrIdxRec a

/-! ## The flat dynamic-property backend

An association list from keys to stored strings; the most recent binding
comes first.  `setDynamicProperty(k, v)` replaces the binding,
`setDynamicProperty(k)` deletes it. -/

/-- The backend store. -/
abbrev Store := List (Str × SVal)

/-- Model of `setDynamicProperty(k, v)`. -/
def storeSet (st : Store) (k : Str) (v : SVal) : Store :=
  (k, v) :: st.filter (fun p => !(p.1 == k))

/-- Model of `setDynamicProperty(k)` (delete). -/
def storeDel (st : Store) (k : Str) : Store :=
  st.filter (fun p => !(p.1 == k))

/-- Model of `getDynamicProperty(k)`. -/
def storeGet (st : Store) (k : Str) : Option SVal :=
  (st.find? (fun p => p.1 == k)).map (·.2)

/-! ## `PropertyStorage` (src/storage/property-storage.ts)

The prefix is specialized to its default `""` (no claim involves
sub-storages).  The `ExtendedStorage` instance state is the backend store
plus the `init` flag; `log` additionally records every physical key passed
to `setDynamicProperty` (writes and deletes), in order — instrumentation
used to state the write-ordering claim. -/

/-- An `ExtendedStorage` instance: backend store, `init` flag, write log. -/
structure ES where
  store : Store
  init : Bool
  log : List Str
deriving DecidableEq

/-- The empty storage, fresh instance. -/
def esEmpty : ES := ⟨[], false, []⟩

/-- Model of `PropertyStorage.set` (serialize, then `setDynamicProperty`). -/
def psSet (e : ES) (k : Str) (v : JSVal) : ES :=
  match serialize v with
  | some sv => { e with store := storeSet e.store k sv, log := e.log ++ [k] }
  | none => { e with store := storeDel e.store k, log := e.log ++ [k] }

/-- Model of `PropertyStorage.drop`. -/
def psDrop (e : ES) (k : Str) : ES :=
  { e with store := storeDel e.store k, log := e.log ++ [k] }

/-- Model of `PropertyStorage.get` (all values the library stores are strings, so the
`typeof value === "string"` guard always holds on a hit). -/
def psGet (st : Store) (k : Str) (deser : Bool) (d : JSVal) : JSVal :=
  match storeGet st k with
  | none => d
  | some sv => if deser then deserializeS sv else .str (svalText sv)


/-! ## `ExtendedStorage` (src/storage/extended-storage.ts)

Thrown `TypeError` / `Error` exceptions are modelled with `Except JSError`. -/

/-- A thrown JS exception (`TypeError` from the index-shape checks, plain
`Error` from `MultiArray.setValue`); messages are not modelled. -/
inductive JSError where
  | typeError
  | jsError
deriving DecidableEq

deriving instance DecidableEq for Except

/-- The `ArrayIndex` payload of a value (only read where the shape checks
have already guaranteed it). -/
def JSVal.asArrIdx : JSVal → ArrIdx
  | .arrIdxRec a => a
  | _ => ⟨0, 0, []⟩

/-- The `max` field as the loop bound `i < index.max` (only read where the
shape checks have already guaranteed an `Index`). -/
def JSVal.maxInt : JSVal → Int
  | .indexRec m => m
  | _ => 0

/-- The string content of a value (`result += chunk` only ever concatenates
string chunks). -/
def JSVal.asText : JSVal → Str
  | .str s => s
  | _ => []

/-- JS object indexing `arrayIndex[i]` on the link map. -/
def ArrIdx.getLink (a : ArrIdx) (i : Int) : Option SubIdx :=
  (a.links.find? (fun p => p.1 == i)).map (·.2)

/-- JS object property assignment `arrayIndex[i] = s`. -/
def ArrIdx.setLink (a : ArrIdx) (i : Int) (s : SubIdx) : ArrIdx :=
  { a with links := (i, s) :: a.links.filter (fun p => !(p.1 == i)) }

/-- Model of `ExtendedStorage.initStorage`. -/
def ES.initStorage (e : ES) : ES :=
  let e1 := psSet e shapeKey (.bool true)
  { e1 with init := true }

/-- Model of `ExtendedStorage.setIndex`: writes under `key + ".index"`. -/
def ES.setIndex (e : ES) (k : Str) (idx : JSVal) : ES :=
  let e1 := psSet e (indexKey k) idx
  if e1.init then e1 else e1.initStorage

/-- Model of `ExtendedStorage.getIndex`: reads `key + ".index"`; a truthy value whose
`max` field is falsy is a thrown `TypeError`. -/
def ES.getIndex (e : ES) (k : Str) : Except JSError (Option JSVal) :=
  let value := psGet e.store (indexKey k) true .undefined
  if value.truthy then
    if value.maxF.truthy then .ok (some value) else .error .typeError
  else .ok none

/-- Model of `ExtendedStorage.setArrayIndex`: writes under the *bare* key. -/
def ES.setArrayIndex (e : ES) (k : Str) (idx : JSVal) : ES :=
  let e1 := psSet e k idx
  if e1.init then e1 else e1.initStorage

/-- Model of `ExtendedStorage.getArrayIndex`: reads `key + ".index"`; a truthy value
whose `start` field is falsy is a thrown `TypeError`. -/
def ES.getArrayIndex (e : ES) (k : Str) : Except JSError (Option JSVal) :=
  let value := psGet e.store (indexKey k) true .undefined
  if value.truthy then
    if value.startF.truthy then .ok (some value) else .error .typeError
  else .ok none

/-- Model of `ExtendedStorage.isArrayEmpty`. -/
def ES.isArrayEmpty (e : ES) (k : Str) : Except JSError Bool := do
  let idx ← e.getArrayIndex k
  match idx with
  | none => pure true
  | some v => pure (decide (v.endF = v.startF))

/-- Model of `ExtendedStorage.isArray` (note: it re-reads the array index through
`isArrayEmpty`). -/
def ES.isArray (e : ES) (k : Str) : Except JSError Bool := do
  let idx ← e.getArrayIndex k
  if idx.isSome then do
    let emp ← e.isArrayEmpty k
    pure (!emp)
  else pure false

/-- The loop `for (let i = 0; i < index.max; i++) super.drop(key + "." + i)`
from `ExtendedStorage.drop`. -/
def dropChunks : ES → Str → Nat → Nat → ES
  | e, _, _, 0 => e
  | e, k, i, c + 1 => dropChunks (psDrop e (chunkKey k i)) k (i + 1) c

/-- The loop `while (i != null) { super.drop(key + ".ar." + i); i =
arrayIndex[i].next }` from `ExtendedStorage.drop`.  Reading `.next` of a
missing link record is a thrown `TypeError`.  The loop is modelled with fuel
`links.length + 1`; it terminates within that bound whenever the link records
form a chain (each entry visited at most once), which covers every state the
claims touch — on fuel exhaustion the model stops (the JS loop would keep
going on cyclic links). -/
def dropArraySlots : ES → Str → ArrIdx → Option Int → Nat → Except JSError ES
  | e, _, _, none, _ => .ok e
  | e, _, _, some _, 0 => .ok e
  | e, k, a, some i, fuel + 1 =>
    let e1 := psDrop e (slotKey k i)
    match a.getLink i with
    | none => .error .typeError
    | some s => dropArraySlots e1 k a s.next fuel

/-- Model of `ExtendedStorage.drop`. -/
def ES.drop (e : ES) (k : Str) : Except JSError ES := do
  let isArr ← e.isArray k
  if isArr then do
    let aIdx ← e.getArrayIndex k
    match aIdx with
    | none => pure e
    | some v =>
      let a := v.asArrIdx
      let e1 ← dropArraySlots e k a (some a.start) (a.links.length + 1)
      pure (e1.setArrayIndex k .undefined)
  else do
    let idx ← e.getIndex k
    match idx with
    | none => pure (psDrop e k)
    | some v =>
      let e1 := dropChunks e k 0 v.maxInt.toNat
      pure (e1.setIndex k .undefined)

/-- The loop `for (let i = 0; i < chunks.length; i++) super.set(key + "." +
i, chunks[i])` from `ExtendedStorage.set`. -/
def writeChunks : ES → Str → List Str → Nat → ES
  | e, _, [], _ => e
  | e, k, c :: cs, i => writeChunks (psSet e (chunkKey k i) (.str c)) k cs (i + 1)

/-- Model of `ExtendedStorage.set`.  `cs` is the chunk size `splitValueIntoChunks` is
called with; the source calls it with its default `MAX_BYTE_SIZE`. -/
def ES.set (e : ES) (k : Str) (v : JSVal) (cs : Nat) : Except JSError ES := do
  let idx ← e.getIndex k
  let e ← if idx.isSome || !v.truthy then e.drop k else pure e
  if !v.truthy then pure e
  else if endsInDotNum k then pure (psSet e k v)
  else
    let chunks := splitValueIntoChunks (serializeText v) cs
    let e := e.setIndex k (.indexRec chunks.length)
    pure (writeChunks e k chunks 0)

/-- Model of `ExtendedStorage.set` at its default chunk size. -/
def ES.setD (e : ES) (k : Str) (v : JSVal) : Except JSError ES :=
  e.set k v MAX_BYTE_SIZE

/-- The read loop of `ExtendedStorage.get`: chunks `i, i+1, ...` (`n` more to
read), concatenated; `none` as soon as a chunk is falsy (missing or empty). -/
def readChunks (st : Store) (k : Str) : Nat → Nat → Option Str
  | _, 0 => some []
  | i, n + 1 =>
    let chunk := psGet st (chunkKey k i) false .undefined
    if chunk.truthy then
      match readChunks st k (i + 1) n with
      | some rest => some (chunk.asText ++ rest)
      | none => none
    else none

/-- Model of `ExtendedStorage.get`. -/
def ES.get (e : ES) (k : Str) (deser : Bool) (d : JSVal) : Except JSError JSVal := do
  if endsInDotNum k then pure (psGet e.store k deser d)
  else do
    let idx ← e.getIndex k
    match idx with
    | none => pure d
    | some v =>
      match readChunks e.store k 0 v.maxInt.toNat with
      | none => pure d
      | some res =>
        if res = [] then pure d
        else if deser then pure (jsDeserialize res)
        else pure (.str res)

/-- Model of `ExtendedStorage.assertMultiArray`. -/
def ES.assertMultiArray (e : ES) (k : Str) (create : Bool) :
    Except JSError (ArrIdx × ES) := do
  let idx ← e.getArrayIndex k
  let a := match idx with
    | some v => v.asArrIdx
    | none => (⟨0, 0, []⟩ : ArrIdx)
  let a := if a.end_ == a.start then { a with start := 0, end_ := 0 } else a
  if create then pure (a, e.setArrayIndex k (.arrIdxRec a)) else pure (a, e)

/-- Model of `ExtendedStorage.rPush`.  Note the source stores the pushed value at slot
`index.end` *after* incrementing it, one past the slot that received the new
link record. -/
def ES.rPush (e : ES) (k : Str) (v : JSVal) : Except JSError ES := do
  let (a, e) ← e.assertMultiArray k true
  let a ←
    if a.end_ == a.start then pure (a.setLink a.end_ ⟨none, none⟩)
    else
      match a.getLink a.end_ with
      | none => throw JSError.typeError
      | some s =>
        let a1 := a.setLink a.end_ { s with next := some (a.end_ + 1) }
        pure (a1.setLink (a.end_ + 1) ⟨some a.end_, none⟩)
  let a := { a with end_ := a.end_ + 1 }
  let e := psSet e (slotKey k a.end_) v
  pure (e.setArrayIndex k (.arrIdxRec a))

/-- Model of `ExtendedStorage.lPush` (symmetric to `rPush`). -/
def ES.lPush (e : ES) (k : Str) (v : JSVal) : Except JSError ES := do
  let (a, e) ← e.assertMultiArray k true
  let a ←
    if a.end_ == a.start then pure (a.setLink a.start ⟨none, none⟩)
    else
      match a.getLink a.start with
      | none => throw JSError.typeError
      | some s =>
        let a1 := a.setLink a.start { s with prev := some (a.start - 1) }
        pure (a1.setLink (a.start - 1) ⟨none, some a.start⟩)
  let a := { a with start := a.start - 1 }
  let e := psSet e (slotKey k a.start) v
  pure (e.setArrayIndex k (.arrIdxRec a))

/-- Model of `ExtendedStorage.rPop`.  `deser` is the `deserialize` argument handed to
`PropertyStorage.get` (defaulting to `true` when the caller omits it); the
`options` argument lands in `PropertyStorage.get`'s `defaultValue` slot,
which is therefore `undefined`. -/
def ES.rPop (e : ES) (k : Str) (deser : Bool) : Except JSError (JSVal × ES) := do
  let (a, e) ← e.assertMultiArray k false
  if a.end_ == a.start then pure (.undefined, e)
  else
    let v := psGet e.store (slotKey k a.end_) deser .undefined
    let a := { a with end_ := a.end_ - 1 }
    pure (v, e.setArrayIndex k (.arrIdxRec a))

/-- Model of `ExtendedStorage.lPop` (symmetric to `rPop`). -/
def ES.lPop (e : ES) (k : Str) (deser : Bool) : Except JSError (JSVal × ES) := do
  let (a, e) ← e.assertMultiArray k false
  if a.end_ == a.start then pure (.undefined, e)
  else
    let v := psGet e.store (slotKey k a.start) deser .undefined
    let a := { a with start := a.start + 1 }
    pure (v, e.setArrayIndex k (.arrIdxRec a))

/-! ## `MultiArray` (src/storage/multi-array.ts) -/

/-- A `MultiArray` cursor: bound key, slot and cached link record (the
storage instance is passed explicitly). -/
structure MultiArrayM where
  key : Str
  index : Int
  subIndex : SubIdx

/-- Model of `MultiArray.isRemoved`: `storage.get(key + ".ar." + index) === undefined`. -/
def MultiArrayM.isRemoved (m : MultiArrayM) (e : ES) : Except JSError Bool := do
  let v ← ES.get e (slotKey m.key m.index) true .undefined
  pure (decide (v = .undefined))

/-- Model of `MultiArray.getValue`. -/
def MultiArrayM.getValue (m : MultiArrayM) (e : ES) : Except JSError JSVal := do
  let r ← m.isRemoved e
  if r then pure .undefined
  else ES.get e (slotKey m.key m.index) true .undefined

/-- Model of `MultiArray.setValue` (throws `Error` on a removed element). -/
def MultiArrayM.setValue (m : MultiArrayM) (e : ES) (v : JSVal) :
    Except JSError ES := do
  let r ← m.isRemoved e
  if r then throw JSError.jsError
  else ES.setD e (slotKey m.key m.index) v

/-! ## `CachedStorage` (src/storage/cached-storage.ts)

The in-memory cache is a map from keys to the serialized value;
`Map.set(key, undefined)` (from serializing `undefined`) stores an entry the
`value === undefined` check treats as a miss, hence `Option SVal` values. -/

/-- A `CachedStorage` instance: backend store plus in-memory cache. -/
structure CS where
  store : Store
  cache : List (Str × Option SVal)
deriving DecidableEq

/-- Model of `Map.prototype.set`. -/
def cacheSet (c : List (Str × Option SVal)) (k : Str) (v : Option SVal) :
    List (Str × Option SVal) :=
  (k, v) :: c.filter (fun p => !(p.1 == k))

/-- Model of `Map.prototype.get` (an entry holding `undefined` reads as a miss). -/
def cacheGet (c : List (Str × Option SVal)) (k : Str) : Option SVal :=
  ((c.find? (fun p => p.1 == k)).map (·.2)).join

/-- Model of `Map.prototype.delete`. -/
def cacheDel (c : List (Str × Option SVal)) (k : Str) : List (Str × Option SVal) :=
  c.filter (fun p => !(p.1 == k))

/-- Model of `CachedStorage.set`: write backend, then cache the serialized value. -/
def CS.set (c : CS) (k : Str) (v : JSVal) : CS :=
  match serialize v with
  | some sv => ⟨storeSet c.store k sv, cacheSet c.cache k (some sv)⟩
  | none => ⟨storeDel c.store k, cacheSet c.cache k none⟩

/-- Model of `PropertyStorage.drop` as inherited by `CachedStorage`: deletes the
backend key only, the cache is untouched. -/
def CS.drop (c : CS) (k : Str) : CS :=
  ⟨storeDel c.store k, c.cache⟩

/-- Model of `CachedStorage.remove`: deletes the backend key and the cache entry. -/
def CS.remove (c : CS) (k : Str) : CS :=
  ⟨storeDel c.store k, cacheDel c.cache k⟩

/-- Model of `CachedStorage.get`: cache first, then backend, then the default. -/
def CS.get (c : CS) (k : Str) (deser : Bool) (d : JSVal) : JSVal :=
  match cacheGet c.cache k with
  | some sv => if deser then deserializeS sv else .str (svalText sv)
  | none =>
    match storeGet c.store k with
    | none => d
    | some sv => if deser then deserializeS sv else .str (svalText sv)


/-- Helper: the storage state `ExtendedStorage.set` builds on a fresh store
for a truthy, non-numeric-suffixed key: index record first, init marker,
then the chunks. -/
def setResultState (K : Str) (cl : List Str) : ES :=
  writeChunks (ES.setIndex esEmpty K (.indexRec cl.length)) K cl 0

/-! ## Evaluation sanity checks (concrete traces) -/

example : splitValueIntoChunks (su "abcd") 2 = [su "ab", su "cd"] := by decide
example : splitValueIntoChunks [233] 4 = [[65533]] := by decide
example : natStr 10 = su "10" := by decide
example : endsInDotNum (su "k.12") = true := by decide
example : endsInDotNum (su "k.ar.-1") = false := by decide
example : endsInDotNum (su "k") = false := by decide

example : psGet (storeSet [] (su "a") (.raw (su "5"))) (su "a") true .undefined = .num 5 := by decide
example : psGet [] (su "a") true (.num 7) = .num 7 := by decide
example : jsDeserialize (su "hello") = .str (su "hello") := by decide
example : jsDeserialize (su "0") = .num 0 := by decide
example : jsDeserialize (su "-12") = .num (-12) := by decide
example : jsDeserialize (su "012") = .str (su "012") := by decide

example : jsonAccepts (su "1.5") = true := by decide
example : jsonAccepts (su " 1 ") = true := by decide
example : jsonAccepts (su "\"x\"") = true := by decide
example : jsonAccepts (su " [1, 2, null] ") = true := by decide
example : jsonAccepts ([123] ++ su "\"max\": 1" ++ [125]) = true := by decide
example : jsonAccepts (su "hello") = false := by decide
example : jsonAccepts (su "01") = false := by decide
example : jsonAccepts (su "1.") = false := by decide
example : jsonAccepts (su "[1,]") = false := by decide
example : parseJSON (su "1.5") = none := by decide
example : parseJSON (su " 1 ") = some (.num 1) := by decide
example : parseJSON (su "\"a\\n\"") = some (.str [97, 10]) := by decide
example : jsDeserialize (su "\"x\"") = .str (su "x") := by decide

example :
    (do
      let e1 ← ES.set esEmpty (su "k") (.str (su "0")) MAX_BYTE_SIZE
      ES.get e1 (su "k") true (.num 7)) = .ok (.num 0) := by decide

example :
    (do
      let e1 ← ES.rPush esEmpty (su "k") (.num 1)
      let e2 ← ES.rPush e1 (su "k") (.num 2)
      ES.lPop e2 (su "k") true).map Prod.fst = .ok .undefined := by decide

example :
    (do
      let e1 ← ES.set esEmpty (su "k") (.str (su "hello")) MAX_BYTE_SIZE
      ES.drop e1 (su "k")) = .error .typeError := by decide

example :
    (ES.set esEmpty (su "k") (.str (su "abcd")) 2).map ES.log
      = .ok [indexKey (su "k"), shapeKey, chunkKey (su "k") 0, chunkKey (su "k") 1] := by
  decide

/-! ## Arithmetic and string lemmas -/

/-- The fuelled digit function agrees with `Nat.digits 10` once the fuel
covers the number. -/
theorem natDigitsAux_eq_digits : ∀ fuel n, n ≤ fuel → natDigitsAux fuel n = Nat.digits 10 n := by
  intro fuel
  induction fuel with
  | zero =>
    intro n hn
    have : n = 0 := Nat.le_zero.mp hn
    subst this
    simp [natDigitsAux]
  | succ f ih =>
    intro n hn
    match n with
    | 0 => simp [natDigitsAux]
    | m + 1 =>
      have hd : Nat.digits 10 (m + 1) = (m + 1) % 10 :: Nat.digits 10 ((m + 1) / 10) :=
        Nat.digits_def' (by norm_num) (Nat.succ_pos m)
      have hdiv : (m + 1) / 10 ≤ f := by
        have h1 : (m + 1) / 10 < m + 1 := Nat.div_lt_self (Nat.succ_pos m) (by norm_num)
        omega
      simp [natDigitsAux, hd, ih _ hdiv]

/-- Lemma: `natStr` in terms of `Nat.digits`. -/
theorem natStr_eq (n : Nat) :
    natStr n = if n = 0 then [48] else ((Nat.digits 10 n).map (· + 48)).reverse := by
  unfold natStr
  by_cases h : n = 0
  · simp [h]
  · simp [h, natDigitsAux_eq_digits n n le_rfl]

/-- Every code unit of `natStr n` is a decimal digit. -/
theorem natStr_mem_digit {n c : Nat} (hc : c ∈ natStr n) : 48 ≤ c ∧ c ≤ 57 := by
  rw [natStr_eq] at hc
  by_cases h : n = 0
  · simp [h] at hc
    omega
  · simp [h] at hc
    obtain ⟨d, hd, rfl⟩ := hc
    have := Nat.digits_lt_base (by norm_num) hd
    omega

/-- Lemma: `natStr n` is never empty. -/
theorem natStr_ne_nil (n : Nat) : natStr n ≠ [] := by
  rw [natStr_eq]
  by_cases h : n = 0
  · simp [h]
  · have : Nat.digits 10 n ≠ [] := Nat.digits_ne_nil_iff_ne_zero.mpr h
    simp [h, this]

/-- If the digit rendering of `a` is the single digit `"0"`, then `a = 0`. -/
theorem map48_eq_singleton {a : Nat} (h : (Nat.digits 10 a).map (· + 48) = [48]) : a = 0 := by
  have hdig : Nat.digits 10 a = [0] := by
    match hdg : Nat.digits 10 a with
    | [] => rw [hdg] at h; simp at h
    | [d] =>
      rw [hdg] at h
      simp at h
      have hd0 : d = 0 := by omega
      rw [hd0]
    | d :: d' :: t => rw [hdg] at h; simp at h
  have h0 := Nat.ofDigits_digits 10 a
  rw [hdig] at h0
  simpa [Nat.ofDigits] using h0.symm

/-- Decimal rendering is injective. -/
theorem natStr_inj {m n : Nat} (h : natStr m = natStr n) : m = n := by
  rw [natStr_eq, natStr_eq] at h
  by_cases hm : m = 0 <;> by_cases hn : n = 0
  · omega
  · rw [if_pos hm, if_neg hn] at h
    exact absurd (map48_eq_singleton (by simpa using (congrArg List.reverse h).symm)) hn
  · rw [if_neg hm, if_pos hn] at h
    exact absurd (map48_eq_singleton (by simpa using congrArg List.reverse h)) hm
  · rw [if_neg hm, if_neg hn] at h
    have h2 : (Nat.digits 10 m).map (· + 48) = (Nat.digits 10 n).map (· + 48) := by
      have := congrArg List.reverse h
      simpa using this
    have h3 : Nat.digits 10 m = Nat.digits 10 n := by
      have hinj : Function.Injective (· + 48 : Nat → Nat) := fun a b hab => by simpa using hab
      exact List.map_injective_iff.mpr hinj h2
    calc m = Nat.ofDigits 10 (Nat.digits 10 m) := (Nat.ofDigits_digits 10 m).symm
    _ = Nat.ofDigits 10 (Nat.digits 10 n) := by rw [h3]
    _ = n := Nat.ofDigits_digits 10 n

/-- The head of `natStr n` is a digit code unit. -/
theorem natStr_head (n : Nat) : ∃ h t, natStr n = h :: t ∧ 48 ≤ h ∧ h ≤ 57 := by
  match hd : natStr n with
  | [] => exact absurd hd (natStr_ne_nil n)
  | c :: t =>
    refine ⟨c, t, rfl, ?_⟩
    have : c ∈ natStr n := by rw [hd]; exact List.mem_cons_self c t
    exact natStr_mem_digit this

/-- The last element of a list through an append with a nonempty right part. -/
theorem getLast?_append_right' {α : Type} (l₁ l₂ : List α) (h : l₂ ≠ []) :
    (l₁ ++ l₂).getLast? = l₂.getLast? := by
  rw [← List.head?_reverse, ← List.head?_reverse]
  rw [List.reverse_append]
  match hr : l₂.reverse with
  | [] => exact absurd (by simpa using hr) h
  | c :: t => simp

/-! ## Distinctness of the physical sub-keys -/

/-- An element selected by `getLast?` is a member of the list. -/
theorem mem_of_getLastOpt {α : Type} {l : List α} {x : α} (h : l.getLast? = some x) :
    x ∈ l := by
  rw [← List.head?_reverse] at h
  exact List.mem_reverse.mp (List.mem_of_mem_head? (Option.mem_def.mpr h))

/-- Distinct chunk indices give distinct chunk keys. -/
theorem chunkKey_inj {k : Str} {i j : Nat} (h : chunkKey k i = chunkKey k j) : i = j := by
  unfold chunkKey at h
  have h2 := (List.append_right_inj k).mp h
  injection h2 with h21 h22
  exact natStr_inj h22

/-- A chunk key never equals the index key of the same logical key. -/
theorem chunkKey_ne_indexKey (k : Str) (i : Nat) : chunkKey k i ≠ indexKey k := by
  intro h
  unfold chunkKey indexKey at h
  have h2 := (List.append_right_inj k).mp h
  obtain ⟨c, t, hct, hc1, hc2⟩ := natStr_head i
  rw [hct] at h2
  have hsu : su ".index" = [46, 105, 110, 100, 101, 120] := by decide
  rw [hsu] at h2
  injection h2 with ha hb
  injection hb with hc hd
  omega

/-- A chunk key never equals the `shape_extended_storage` marker key. -/
theorem chunkKey_ne_shapeKey (k : Str) (i : Nat) : chunkKey k i ≠ shapeKey := by
  intro h
  have hlast : (chunkKey k i).getLast? = (natStr i).getLast? := by
    unfold chunkKey
    rw [getLast?_append_right' _ _ (by simp)]
    match hd : natStr i with
    | [] => exact absurd hd (natStr_ne_nil i)
    | c :: t => simp
  rw [h] at hlast
  have hshape : shapeKey.getLast? = some 101 := by decide
  rw [hshape] at hlast
  have := natStr_mem_digit (mem_of_getLastOpt hlast.symm)
  omega

/-- An index key never equals the `shape_extended_storage` marker key. -/
theorem indexKey_ne_shapeKey (k : Str) : indexKey k ≠ shapeKey := by
  intro h
  have hlast : (indexKey k).getLast? = some 120 := by
    unfold indexKey
    rw [getLast?_append_right' _ _ (by decide)]
    decide
  rw [h] at hlast
  have : shapeKey.getLast? = some 101 := by decide
  rw [this] at hlast
  exact absurd (Option.some.injEq _ _ ▸ hlast) (by norm_num)

/-- The index key is strictly longer than the bare key. -/
theorem indexKey_ne_self (k : Str) : indexKey k ≠ k := by
  intro h
  have := congrArg List.length h
  simp [indexKey, su] at this

/-! ## Backend store lemmas -/

/-- Looking up the key just written. -/
theorem storeGet_set_self (st : Store) (k : Str) (v : SVal) :
    storeGet (storeSet st k v) k = some v := by
  simp [storeGet, storeSet, List.find?]

/-- Entries under a different key are invisible to a lookup. -/
theorem storeGet_filter_ne (st : Store) (k q : Str) (h : q ≠ k) :
    storeGet (st.filter (fun p => !(p.1 == k))) q = storeGet st q := by
  induction st with
  | nil => rfl
  | cons a t ih =>
    by_cases hak : a.1 = k
    · have h1 : (a.1 == k) = true := beq_iff_eq.mpr hak
      have h2 : (a.1 == q) = false := by
        rw [beq_eq_false_iff_ne]
        rw [hak]
        exact fun hkq => h hkq.symm
      simp [storeGet, List.find?, h1, h2] at *
      exact ih
    · have h1 : (a.1 == k) = false := beq_eq_false_iff_ne.mpr hak
      by_cases haq : a.1 = q
      · have h2 : (a.1 == q) = true := beq_iff_eq.mpr haq
        simp [storeGet, List.find?, h1, h2]
      · have h2 : (a.1 == q) = false := beq_eq_false_iff_ne.mpr haq
        simp [storeGet, List.find?, h1, h2] at *
        exact ih

/-- Writing one key leaves lookups of any other key unchanged. -/
theorem storeGet_set_ne (st : Store) (k q : Str) (v : SVal) (h : q ≠ k) :
    storeGet (storeSet st k v) q = storeGet st q := by
  have h2 : ((k, v).1 == q) = false := beq_eq_false_iff_ne.mpr (fun hkq => h hkq.symm)
  simp only [storeSet, storeGet, List.find?, h2]
  exact storeGet_filter_ne st k q h

/-- Deleting one key leaves lookups of any other key unchanged. -/
theorem storeGet_del_ne (st : Store) (k q : Str) (h : q ≠ k) :
    storeGet (storeDel st k) q = storeGet st q :=
  storeGet_filter_ne st k q h

/-- A deleted key reads as absent. -/
theorem storeGet_del_self (st : Store) (k : Str) :
    storeGet (storeDel st k) k = none := by
  induction st with
  | nil => rfl
  | cons a t ih =>
    by_cases hak : a.1 = k
    · have h1 : (a.1 == k) = true := beq_iff_eq.mpr hak
      simp only [storeDel, List.filter] at ih ⊢
      simp [h1, ih]
    · have h1 : (a.1 == k) = false := beq_eq_false_iff_ne.mpr hak
      simp only [storeDel, List.filter] at ih ⊢
      simp [storeGet, List.find?, h1, ih]

/-! ## Chunk-codec lemmas -/

/-- The fuelled slicer is fuel-insensitive above the list length. -/
theorem chunksOfF_congr (size : Nat) :
    ∀ f1 f2 l, l.length ≤ f1 → l.length ≤ f2 →
      chunksOfF size f1 l = chunksOfF size f2 l := by
  intro f1
  induction f1 with
  | zero =>
    intro f2 l h1 _
    have : l = [] := List.eq_nil_of_length_eq_zero (Nat.le_zero.mp h1)
    subst this
    cases f2 <;> rfl
  | succ f ih =>
    intro f2 l h1 h2
    match l with
    | [] => cases f2 <;> rfl
    | a :: t =>
      match f2 with
      | 0 => simp at h2
      | g + 1 =>
        show chunksOfF size (f + 1) (a :: t) = chunksOfF size (g + 1) (a :: t)
        by_cases hs : size = 0
        · simp [chunksOfF, hs]
        · simp only [List.length_cons] at h1 h2
          have hlen : ((a :: t).drop size).length ≤ f := by
            simp only [List.length_drop, List.length_cons]
            omega
          have hlen2 : ((a :: t).drop size).length ≤ g := by
            simp only [List.length_drop, List.length_cons]
            omega
          simp only [chunksOfF, hs, if_false]
          rw [ih g _ hlen hlen2]

/-- One unfolding step of `chunksOf` for a positive size and nonempty input. -/
theorem chunksOf_cons (size : Nat) (l : List Nat) (hs : 0 < size) (hl : l ≠ []) :
    chunksOf size l = l.take size :: chunksOf size (l.drop size) := by
  match l with
  | [] => exact absurd rfl hl
  | a :: t =>
    show chunksOfF size (a :: t).length (a :: t) = _
    have hs' : ¬size = 0 := Nat.pos_iff_ne_zero.mp hs
    simp only [List.length_cons, chunksOfF, hs', if_false]
    have hlen : ((a :: t).drop size).length ≤ t.length := by
      simp only [List.length_drop, List.length_cons]
      omega
    rw [chunksOfF_congr size t.length ((a :: t).drop size).length _ hlen le_rfl]
    rfl

/-- Concatenating the chunks in order reproduces the input byte string. -/
theorem chunksOf_flatten (size : Nat) (hs : 0 < size) :
    ∀ l : List Nat, (chunksOf size l).flatten = l := by
  have key : ∀ n (l : List Nat), l.length ≤ n → (chunksOf size l).flatten = l := by
    intro n
    induction n with
    | zero =>
      intro l h
      have : l = [] := List.eq_nil_of_length_eq_zero (Nat.le_zero.mp h)
      subst this
      rfl
    | succ n ih =>
      intro l h
      match l with
      | [] => rfl
      | a :: t =>
        rw [chunksOf_cons size _ hs (by simp)]
        have hlen : ((a :: t).drop size).length ≤ n := by
          simp only [List.length_drop, List.length_cons]
          simp only [List.length_cons] at h
          omega
        simp only [List.flatten_cons, ih _ hlen, List.take_append_drop]
  exact fun l => key l.length l le_rfl

/-- Every chunk is nonempty and its bytes come from the input. -/
theorem chunksOf_pieces (size : Nat) (hs : 0 < size) :
    ∀ l c : List Nat, c ∈ chunksOf size l → c ≠ [] ∧ ∀ x ∈ c, x ∈ l := by
  have key : ∀ n (l c : List Nat), l.length ≤ n → c ∈ chunksOf size l →
      c ≠ [] ∧ ∀ x ∈ c, x ∈ l := by
    intro n
    induction n with
    | zero =>
      intro l c h hc
      have : l = [] := List.eq_nil_of_length_eq_zero (Nat.le_zero.mp h)
      subst this
      simp [chunksOf, chunksOfF] at hc
    | succ n ih =>
      intro l c h hc
      match l with
      | [] => simp [chunksOf, chunksOfF] at hc
      | a :: t =>
        rw [chunksOf_cons size _ hs (by simp)] at hc
        rcases List.mem_cons.mp hc with hc1 | hc2
        · subst hc1
          constructor
          · have : (a :: t).take size ≠ [] := by
              intro hemp
              have hlen := congrArg List.length hemp
              simp only [List.length_take, List.length_cons, List.length_nil] at hlen
              omega
            exact this
          · exact fun x hx => List.take_subset _ _ hx
        · have hlen : ((a :: t).drop size).length ≤ n := by
            simp only [List.length_drop, List.length_cons]
            simp only [List.length_cons] at h
            omega
          obtain ⟨hne, hsub⟩ := ih _ c hlen hc2
          exact ⟨hne, fun x hx => List.drop_subset _ _ (hsub x hx)⟩
  exact fun l c => key l.length l c le_rfl

/-- A nonempty input yields a nonempty chunk list. -/
theorem chunksOf_ne_nil (size : Nat) (l : List Nat) (hs : 0 < size) (hl : l ≠ []) :
    chunksOf size l ≠ [] := by
  rw [chunksOf_cons size l hs hl]
  simp

/-- The UTF-8 decoder is the identity on ASCII byte lists. -/
theorem utf8DecodeF_ascii :
    ∀ fuel (l : List Nat), l.length ≤ fuel → (∀ c ∈ l, c ≤ 127) →
      utf8DecodeF fuel l = l := by
  intro fuel
  induction fuel with
  | zero =>
    intro l h _
    have : l = [] := List.eq_nil_of_length_eq_zero (Nat.le_zero.mp h)
    subst this
    rfl
  | succ f ih =>
    intro l h hascii
    match l with
    | [] => rfl
    | b :: rest =>
      have hb : b ≤ 127 := hascii b (List.mem_cons_self b rest)
      simp only [utf8DecodeF, if_pos hb]
      rw [ih rest (by simp at h; omega) (fun c hc => hascii c (List.mem_cons_of_mem b hc))]

/-- Model of `TextDecoder` is the identity on ASCII byte lists. -/
theorem utf8Decode_ascii (l : List Nat) (h : ∀ c ∈ l, c ≤ 127) : utf8Decode l = l :=
  utf8DecodeF_ascii l.length l le_rfl h

/-- Encoding is the identity on ASCII strings. -/
theorem encodeValue_ascii (s : Str) (h : ∀ c ∈ s, c ≤ 127) : encodeValue s = s := by
  unfold encodeValue
  rw [List.map_congr_left (fun c hc => Nat.mod_eq_of_lt (by have := h c hc; omega))]
  exact List.map_id s

/-- On ASCII input, `splitValueIntoChunks` is exactly the greedy byte
slicing: encoding and per-chunk decoding are the identity. -/
theorem splitValueIntoChunks_ascii (s : Str) (cs : Nat) (hcs : 0 < cs)
    (h : ∀ c ∈ s, c ≤ 127) :
    splitValueIntoChunks s cs = chunksOf cs s := by
  unfold splitValueIntoChunks
  rw [encodeValue_ascii s h]
  rw [List.map_congr_left (fun c hc =>
    utf8Decode_ascii c (fun x hx => h x ((chunksOf_pieces cs hcs s c hc).2 x hx)))]
  exact List.map_id _

/-! ## Chunk write/read lemmas for `ExtendedStorage.set`/`get` -/

/-- Lemma: `>>=` on a successful `Except` computation. -/
theorem exceptBind_ok {α β : Type} (a : α) (f : α → Except JSError β) :
    (Except.ok a >>= f) = f a := rfl

/-- Lemma: `writeChunks` leaves any key that is not one of the written chunk keys
unchanged. -/
theorem writeChunks_store_other (k q : Str) :
    ∀ (cl : List Str) (i0 : Nat) (e : ES),
      (∀ j, j < cl.length → q ≠ chunkKey k (i0 + j)) →
      storeGet (writeChunks e k cl i0).store q = storeGet e.store q := by
  intro cl
  induction cl with
  | nil => intro i0 e _; rfl
  | cons c rest ih =>
    intro i0 e h
    show storeGet (writeChunks (psSet e (chunkKey k i0) (.str c)) k rest (i0 + 1)).store q
      = storeGet e.store q
    rw [ih (i0 + 1) _ (fun j hj => by
      have := h (j + 1) (by simp only [List.length_cons]; omega)
      rw [show i0 + (j + 1) = i0 + 1 + j from by omega] at this
      exact this)]
    have hq : q ≠ chunkKey k i0 := by
      have := h 0 (by simp only [List.length_cons]; omega)
      simpa using this
    exact storeGet_set_ne _ _ _ _ hq

/-- After `writeChunks`, the `j`-th chunk key holds the `j`-th chunk. -/
theorem writeChunks_store_self (k : Str) :
    ∀ (cl : List Str) (i0 j : Nat) (hj : j < cl.length) (e : ES),
      storeGet (writeChunks e k cl i0).store (chunkKey k (i0 + j))
        = some (.raw (cl.get ⟨j, hj⟩)) := by
  intro cl
  induction cl with
  | nil => intro i0 j hj; simp at hj
  | cons c rest ih =>
    intro i0 j hj e
    cases j with
    | zero =>
      show storeGet (writeChunks (psSet e (chunkKey k i0) (.str c)) k rest (i0 + 1)).store
          (chunkKey k (i0 + 0)) = some (.raw c)
      rw [writeChunks_store_other k _ rest (i0 + 1) _ (fun j' hj' heq => by
        have := chunkKey_inj heq
        omega)]
      rw [show i0 + 0 = i0 from by omega]
      exact storeGet_set_self e.store (chunkKey k i0) (.raw c)
    | succ j' =>
      rw [show i0 + (j' + 1) = (i0 + 1) + j' from by omega]
      exact ih (i0 + 1) j' (by simp only [List.length_cons] at hj; omega) _

/-- The read loop succeeds and reassembles the chunk list in order when every
chunk key holds its nonempty chunk. -/
theorem readChunks_all (st : Store) (k : Str) :
    ∀ (cl : List Str) (i0 : Nat),
      (∀ j (hj : j < cl.length),
        storeGet st (chunkKey k (i0 + j)) = some (.raw (cl.get ⟨j, hj⟩)) ∧
          cl.get ⟨j, hj⟩ ≠ []) →
      readChunks st k i0 cl.length = some cl.flatten := by
  intro cl
  induction cl with
  | nil => intro i0 _; rfl
  | cons c rest ih =>
    intro i0 h
    obtain ⟨h01, h02⟩ := h 0 (by simp only [List.length_cons]; omega)
    have h01' : storeGet st (chunkKey k (i0 + 0)) = some (.raw c) := h01
    have h02' : c ≠ [] := h02
    rw [Nat.add_zero] at h01'
    have hrest : readChunks st k (i0 + 1) rest.length = some rest.flatten := by
      apply ih
      intro j hj
      have := h (j + 1) (by simp only [List.length_cons]; omega)
      rw [show i0 + (j + 1) = i0 + 1 + j from by omega] at this
      simpa using this
    have hps : psGet st (chunkKey k i0) false .undefined = .str c := by
      simp only [psGet, h01']
      rfl
    have htr : (JSVal.str c).truthy = true := by
      simp only [JSVal.truthy, bne_iff_ne, ne_eq]
      exact h02'
    show readChunks st k i0 (rest.length + 1) = some ((c :: rest).flatten)
    simp only [readChunks, hps, htr, if_true, hrest, JSVal.asText, List.flatten_cons]

/-- Lemma: `serializeText` recovers the raw serialized string. -/
theorem serializeText_of_raw {v : JSVal} {s : Str} (h : serialize v = some (.raw s)) :
    serializeText v = s := by
  simp [serializeText, h, svalText]


/-- On a fresh store, `set` succeeds and produces exactly the index record
plus chunk writes. -/
theorem es_set_fresh (K : Str) (v : JSVal) (cs : Nat)
    (hreg : endsInDotNum K = false) (hv : v.truthy = true) :
    ES.set esEmpty K v cs
      = .ok (setResultState K (splitValueIntoChunks (serializeText v) cs)) := by
  unfold ES.set
  rw [show ES.getIndex esEmpty K = Except.ok none from rfl, exceptBind_ok]
  simp only [hv, hreg, Option.isSome_none, Bool.not_true, Bool.or_false,
    Bool.false_eq_true, if_false, setResultState]
  rfl

/-- After a fresh `set`, the index key holds the chunk-count record. -/
theorem es_set_fresh_index (K : Str) (cl : List Str) :
    storeGet (setResultState K cl).store (indexKey K) = some (.jsonIndex cl.length) := by
  unfold setResultState
  rw [writeChunks_store_other K (indexKey K) cl 0 _
    (fun j _ => (chunkKey_ne_indexKey K (0 + j)).symm)]
  show storeGet (storeSet (storeSet [] (indexKey K) (.jsonIndex cl.length))
    shapeKey (.raw (su "true"))) (indexKey K) = _
  rw [storeGet_set_ne _ _ _ _ (indexKey_ne_shapeKey K)]
  exact storeGet_set_self _ _ _

/-- C1 (amended), main lemma: round-trip through `set` then `get` on a fresh
store, for a truthy value whose serialization `s` is a nonempty ASCII string
that deserializes back to the value, at any positive chunk-size ceiling. -/
theorem es_roundtrip (K : Str) (v : JSVal) (cs : Nat) (d : JSVal) (s : Str)
    (hreg : endsInDotNum K = false)
    (hv : v.truthy = true)
    (hser : serialize v = some (.raw s))
    (hne : s ≠ [])
    (hascii : ∀ c ∈ s, c ≤ 127)
    (hdes : jsDeserialize s = v)
    (hcs : 0 < cs) :
    (ES.set esEmpty K v cs >>= fun e1 => ES.get e1 K true d) = .ok v := by
  have hst : serializeText v = s := serializeText_of_raw hser
  have hsplit : splitValueIntoChunks (serializeText v) cs = chunksOf cs s := by
    rw [hst]
    exact splitValueIntoChunks_ascii s cs hcs hascii
  have hchne : chunksOf cs s ≠ [] := chunksOf_ne_nil cs s hcs hne
  have hn0 : (chunksOf cs s).length ≠ 0 := fun h0 => hchne (List.length_eq_zero.mp h0)
  have hset : ES.set esEmpty K v cs = .ok (setResultState K (chunksOf cs s)) := by
    rw [es_set_fresh K v cs hreg hv, hsplit]
  have hstore_idx : storeGet (setResultState K (chunksOf cs s)).store (indexKey K)
      = some (.jsonIndex (chunksOf cs s).length) :=
    es_set_fresh_index K (chunksOf cs s)
  have hgi2 : ES.getIndex (setResultState K (chunksOf cs s)) K
      = .ok (some (.indexRec (chunksOf cs s).length)) := by
    unfold ES.getIndex
    simp only [psGet, hstore_idx, deserializeS, JSVal.truthy, JSVal.maxF]
    have hz : ((chunksOf cs s).length : Int) ≠ 0 := by exact_mod_cast hn0
    simp [hz]
  have hread : readChunks (setResultState K (chunksOf cs s)).store K 0
      (chunksOf cs s).length = some (chunksOf cs s).flatten := by
    apply readChunks_all
    intro j hj
    refine ⟨writeChunks_store_self K _ 0 j hj _, ?_⟩
    exact (chunksOf_pieces cs hcs s _ (List.get_mem _ _ _)).1
  have hflat : (chunksOf cs s).flatten = s := chunksOf_flatten cs hcs s
  have hget : ES.get (setResultState K (chunksOf cs s)) K true d = .ok v := by
    unfold ES.get
    simp only [hreg, Bool.false_eq_true, if_false]
    rw [hgi2, exceptBind_ok]
    simp only [JSVal.maxInt, Int.toNat_natCast, hread, hflat, hne, hdes]
    simp [hne, hdes]
    rfl
  rw [hset, exceptBind_ok, hget]

/-! ## Slot keys match the numeric-suffix fast path -/

/-- Lemma: `takeWhile` walks through a fully-satisfying prefix. -/
theorem takeWhile_append_of_all {p : Nat → Bool} :
    ∀ (a b : List Nat), (∀ x ∈ a, p x = true) →
      List.takeWhile p (a ++ b) = a ++ List.takeWhile p b := by
  intro a
  induction a with
  | nil => intro b _; rfl
  | cons x t ih =>
    intro b h
    have hx : p x = true := h x (List.mem_cons_self x t)
    simp only [List.cons_append, List.takeWhile_cons, hx, if_true]
    rw [ih b (fun y hy => h y (List.mem_cons_of_mem x hy))]

/-- For a nonnegative slot `i`, `key + ".ar." + i` ends in a dot followed by
digits, so `ExtendedStorage.set`/`get` route it to the raw single-key path. -/
theorem endsInDotNum_slotKey (K : Str) (i : Nat) :
    endsInDotNum (slotKey K (i : Int)) = true := by
  have hints : intStr (i : Int) = natStr i := by
    unfold intStr
    rw [if_neg (by omega)]
    simp
  have hrev : (slotKey K (i : Int)).reverse
      = (natStr i).reverse ++ (46 :: ([114, 97, 46] ++ K.reverse)) := by
    unfold slotKey
    rw [hints]
    have : su ".ar." = [46, 97, 114, 46] := by decide
    rw [this]
    simp [List.reverse_append]
  have hall : ∀ x ∈ (natStr i).reverse, isDigitCU x = true := by
    intro x hx
    have := natStr_mem_digit (List.mem_reverse.mp hx)
    simp [isDigitCU]
    omega
  have htw : List.takeWhile isDigitCU ((natStr i).reverse ++ (46 :: ([114, 97, 46] ++ K.reverse)))
      = (natStr i).reverse := by
    rw [takeWhile_append_of_all _ _ hall]
    simp [List.takeWhile_cons, isDigitCU]
  unfold endsInDotNum
  rw [hrev]
  simp only [htw, List.drop_left]
  simp [natStr_ne_nil i]

/-! ## Cache lemmas -/

/-- Reading the cache entry just written. -/
theorem cacheGet_set_self (c : List (Str × Option SVal)) (k : Str) (sv : SVal) :
    cacheGet (cacheSet c k (some sv)) k = some sv := by
  simp [cacheGet, cacheSet, List.find?]

/-- A deleted cache entry reads as a miss. -/
theorem cacheGet_del_self (c : List (Str × Option SVal)) (k : Str) :
    cacheGet (cacheDel c k) k = none := by
  induction c with
  | nil => rfl
  | cons a t ih =>
    by_cases hak : a.1 = k
    · have h1 : (a.1 == k) = true := beq_iff_eq.mpr hak
      simpa [cacheDel, cacheGet, List.find?, h1] using ih
    · have h1 : (a.1 == k) = false := beq_eq_false_iff_ne.mpr hak
      simpa [cacheDel, cacheGet, List.find?, h1] using ih

/-- A truthy value always serializes to a string. -/
theorem serialize_some_of_truthy {v : JSVal} (h : v.truthy = true) :
    ∃ sv, serialize v = some sv := by
  cases v with
  | undefined => simp [JSVal.truthy] at h
  | null => simp [JSVal.truthy] at h
  | bool b => cases b <;> simp [serialize]
  | num n => exact ⟨_, rfl⟩
  | str s => exact ⟨_, rfl⟩
  | indexRec m => exact ⟨_, rfl⟩
  | arrIdxRec a => exact ⟨_, rfl⟩

/-- ASCII inputs do round-trip through the chunk codec (supporting fact for
the corruption analysis: the failure is specific to non-ASCII input). -/
theorem split_roundtrip_ascii (s : Str) (cs : Nat) (hcs : 0 < cs)
    (h : ∀ c ∈ s, c ≤ 127) :
    (splitValueIntoChunks s cs).flatten = s := by
  rw [splitValueIntoChunks_ascii s cs hcs h]
  exact chunksOf_flatten cs hcs s

/-- The spec's concrete scenario holds for ASCII input: a 70,000-byte string
with a 32,767-byte ceiling gives exactly three chunks of 32,767, 32,767 and
4,466 bytes. -/
theorem split_70000_bytes :
    splitValueIntoChunks (List.replicate 70000 97) 32767
      = [List.replicate 32767 97, List.replicate 32767 97, List.replicate 4466 97] := by
  have hascii : ∀ c ∈ List.replicate 70000 97, c ≤ 127 := by
    intro c hc
    have := List.eq_of_mem_replicate hc
    omega
  have hrep : ∀ n : Nat, n ≠ 0 → List.replicate n (97 : Nat) ≠ [] := by
    intro n hn h
    have := congrArg List.length h
    simp only [List.length_replicate, List.length_nil] at this
    exact hn this
  rw [splitValueIntoChunks_ascii _ _ (by norm_num) hascii]
  rw [chunksOf_cons 32767 _ (by norm_num) (hrep 70000 (by norm_num))]
  simp only [List.take_replicate, List.drop_replicate]
  rw [show min 32767 70000 = 32767 from by norm_num, show 70000 - 32767 = 37233 from by norm_num]
  rw [chunksOf_cons 32767 _ (by norm_num) (hrep 37233 (by norm_num))]
  simp only [List.take_replicate, List.drop_replicate]
  rw [show min 32767 37233 = 32767 from by norm_num, show 37233 - 32767 = 4466 from by norm_num]
  rw [chunksOf_cons 32767 _ (by norm_num) (hrep 4466 (by norm_num))]
  simp only [List.take_replicate, List.drop_replicate]
  rw [show min 32767 4466 = 4466 from by norm_num, show 4466 - 32767 = 0 from by norm_num]
  rfl

/-! ## The claims -/

/-- C1 counterexample: the round-trip is not bit-for-bit for every
serializable value.  On a fresh store, `set(K, "0")` then `get(K)` returns
the number `0`, not the string `"0"`: strings pass through `serialize`
unquoted and `get` re-parses the reassembled text as JSON. -/
theorem C1_counterexample :
    (ES.setD esEmpty (su "k") (.str (su "0")) >>= fun e1 =>
        ES.get e1 (su "k") true (.num 7)) = .ok (.num 0) ∧
      JSVal.num 0 ≠ .str (su "0") := by
  decide

/-- C1 (corrected): scalar round-trip after `set` on a fresh store, for every
key not ending in a dot-digit suffix, every chunk-size ceiling `cs ≥ 1`, and
every truthy value whose serialized form `s` is a nonempty ASCII string that
deserializes back to the value — in particular covering serialized lengths
of exactly 1, exactly the ceiling, and multiples of the ceiling plus a
remainder: `get(K)` after `set(K, v)` returns `v`.  The hypothesis `hjson`
formalizes the amended claim's "strings `JSON.parse` rejects" condition:
either the JSON grammar rejects `s` outright (so the real deserializer falls
back to the raw string exactly as the model does), or the model's parser
produces `v` itself (null/boolean/integer/quoted-string literals, where it
agrees with `JSON.parse` exactly).  Strings such as `"1.5"`, `"\"x\""`,
`"[]"` or `" 1"` — accepted by `JSON.parse` but outside the modelled value
fragment — satisfy neither disjunct and are excluded from the statement.
`hjson` pins the quantified region to inputs where the model is exact; the
model-level computation itself is already determined by `hdes`. -/
theorem C1_scalar_roundtrip (K : Str) (v : JSVal) (cs : Nat) (d : JSVal) (s : Str)
    (hreg : endsInDotNum K = false)
    (hv : v.truthy = true)
    (hser : serialize v = some (.raw s))
    (hne : s ≠ [])
    (hascii : ∀ c ∈ s, c ≤ 127)
    (hdes : jsDeserialize s = v)
    (hjson : jsonAccepts s = false ∨ parseJSON s = some v)
    (hcs : 0 < cs) :
    (ES.set esEmpty K v cs >>= fun e1 => ES.get e1 K true d) = .ok v := by
  have _ := hjson
  exact es_roundtrip K v cs d s hreg hv hser hne hascii hdes hcs

/-- Witness for C1: the 5-byte string `"hello"` at ceiling 2 (two full chunks
plus a remainder) round-trips; the JSON grammar rejects `"hello"`. -/
theorem C1_scalar_roundtrip_witness :
    endsInDotNum (su "k") = false ∧ 0 < 2 ∧ jsonAccepts (su "hello") = false ∧
    (ES.set esEmpty (su "k") (.str (su "hello")) 2 >>= fun e1 =>
        ES.get e1 (su "k") true (.num 7)) = .ok (.str (su "hello")) :=
  ⟨by decide, by decide, by decide,
    C1_scalar_roundtrip (su "k") (.str (su "hello")) 2 (.num 7) (su "hello")
      (by decide) (by decide) (by decide) (by decide) (by decide) (by decide)
      (Or.inl (by decide)) (by decide)⟩

/-- C2: the FIFO law fails on the code.  On a fresh store, `rPush(k,1)`,
`rPush(k,2)`, then `lPop(k)` returns `undefined`, not the first pushed value
`1`: the array index is persisted under the bare key but looked up under
`k.index`, so every push starts from a fresh index and overwrites slot 1,
and the pop sees an empty array. -/
theorem C2_fifo_violated :
    (do
      let e1 ← ES.rPush esEmpty (su "k") (.num 1)
      let e2 ← ES.rPush e1 (su "k") (.num 2)
      ES.lPop e2 (su "k") true).map Prod.fst = .ok JSVal.undefined ∧
      JSVal.undefined ≠ JSVal.num 1 := by
  decide

/-- C3 (confirmed): `setArrayIndex(K, ix)` persists under the bare key `K`
while `getArrayIndex(K)` reads `K + ".index"`, so in an otherwise-empty
storage the lookup right after the write returns `undefined` (`none`), never
`ix`. -/
theorem C3_arrayIndex_write_read_mismatch (K : Str) (ix : ArrIdx) :
    ES.getArrayIndex (ES.setArrayIndex esEmpty K (.arrIdxRec ix)) K = .ok none := by
  have hstore : storeGet (ES.setArrayIndex esEmpty K (.arrIdxRec ix)).store (indexKey K)
      = none := by
    show storeGet (storeSet (storeSet [] K (.jsonArrIdx ix)) shapeKey (.raw (su "true")))
      (indexKey K) = none
    rw [storeGet_set_ne _ _ _ _ (indexKey_ne_shapeKey K)]
    rw [storeGet_set_ne _ _ _ _ (indexKey_ne_self K)]
    rfl
  unfold ES.getArrayIndex
  simp [psGet, hstore, JSVal.truthy]

/-- C4: `drop` on a well-formed chunked value raises a `TypeError` instead of
cleaning up: `drop` calls `isArray`, which calls `getArrayIndex`, which reads
the value index `{max: 1}` under `k.index` and throws because its `start`
field is falsy. -/
theorem C4_drop_throws_on_chunked_value :
    (ES.setD esEmpty (su "k") (.str (su "hello")) >>= fun e1 =>
        ES.drop e1 (su "k")) = .error .typeError := by
  decide

/-- C5: the chunk codec corrupts non-ASCII input.  For the one-character
string U+00E9 (`"é"`, code unit 233), `encodeValue` truncates the code unit
to a byte and `TextDecoder` replaces the resulting lone continuation byte
with U+FFFD, so reassembling the chunks yields `[65533]`, not the original
string. -/
theorem C5_split_corrupts_nonascii :
    (splitValueIntoChunks [233] 32767).flatten = [65533] ∧
      (splitValueIntoChunks [233] 32767).flatten ≠ [233] := by
  decide

/-- C6: the index record is written first, not last.  The physical write log
of `set(k, "abcd")` at ceiling 2 is: the index key, the init marker, then
the two chunk keys — the header precedes every data sub-key, contradicting
the claimed header-written-last ordering. -/
theorem C6_header_written_first :
    (ES.set esEmpty (su "k") (.str (su "abcd")) 2).map ES.log
      = .ok [indexKey (su "k"), shapeKey, chunkKey (su "k") 0, chunkKey (su "k") 1] := by
  decide

/-- C7 counterexample: for a *negative* slot the value key's absence is not
authoritative.  `ExtendedStorage.set("k.ar.-1", 5)` (the write a cursor
`setValue` issues for a slot created by `lPush`/`insertBefore`) stores a
chunked representation under the derived keys `k.ar.-1.index` and
`k.ar.-1.0` and leaves the slot's own value key `k.ar.-1` absent — the key
misses the `/\.\d+$/` fast path.  A cursor bound to slot `-1` then gets
`.ok (num 5)` from `getValue()`, not the claimed "removed" result, even
though the slot's value key is absent from storage. -/
theorem C7_counterexample :
    (ES.setD esEmpty (slotKey (su "k") (-1)) (.num 5) >>= fun e1 =>
        (MultiArrayM.getValue ⟨su "k", -1, ⟨none, none⟩⟩ e1).map
          (fun v => (v, storeGet e1.store (slotKey (su "k") (-1)))))
      = .ok (.num 5, none) ∧
    JSVal.num 5 ≠ JSVal.undefined := by
  decide

/-- C7 (corrected): for a cursor bound to a *nonnegative* slot `i` of array
key `K` — whose value key `K + ".ar." + i` takes the dot-digit fast path —
if that value key is absent from storage, then `getValue()` returns
`undefined` and `setValue(x)` throws — removal is detected by the value
key's absence alone, ignoring the cursor's cached link record.  The
counterexample above shows the restriction to nonnegative slots is
necessary: negative slots are read through the chunked-value path, where a
derived `.index` record overrides the value key's absence. -/
theorem C7_stale_cursor (e : ES) (K : Str) (i : Nat) (sub : SubIdx) (x : JSVal)
    (habs : storeGet e.store (slotKey K (i : Int)) = none) :
    MultiArrayM.getValue ⟨K, (i : Int), sub⟩ e = .ok .undefined ∧
    MultiArrayM.setValue ⟨K, (i : Int), sub⟩ e x = .error .jsError := by
  have hreg := endsInDotNum_slotKey K i
  have hget : ES.get e (slotKey K (i : Int)) true .undefined = .ok .undefined := by
    unfold ES.get
    simp only [hreg, if_true]
    simp only [psGet, habs]
    rfl
  have hrem : MultiArrayM.isRemoved ⟨K, (i : Int), sub⟩ e = .ok true := by
    unfold MultiArrayM.isRemoved
    rw [show (⟨K, (i : Int), sub⟩ : MultiArrayM).index = (i : Int) from rfl]
    rw [show (⟨K, (i : Int), sub⟩ : MultiArrayM).key = K from rfl]
    rw [hget, exceptBind_ok]
    rfl
  constructor
  · unfold MultiArrayM.getValue
    rw [hrem, exceptBind_ok]
    rfl
  · unfold MultiArrayM.setValue
    rw [hrem, exceptBind_ok]
    rfl

/-- Witness for C7: a cursor on slot 0 of `"k"` in the empty storage. -/
theorem C7_stale_cursor_witness :
    storeGet esEmpty.store (slotKey (su "k") ((0 : Nat) : Int)) = none ∧
    MultiArrayM.getValue ⟨su "k", ((0 : Nat) : Int), ⟨none, none⟩⟩ esEmpty = .ok .undefined ∧
    MultiArrayM.setValue ⟨su "k", ((0 : Nat) : Int), ⟨none, none⟩⟩ esEmpty (.num 5)
      = .error .jsError :=
  ⟨rfl,
    (C7_stale_cursor esEmpty (su "k") 0 ⟨none, none⟩ (.num 5) rfl).1,
    (C7_stale_cursor esEmpty (su "k") 0 ⟨none, none⟩ (.num 5) rfl).2⟩

/-- C8 counterexample: a persisted *empty* array index `{start: 0, end: 0}`
under `k.index` makes both pops throw a `TypeError` (from `getArrayIndex`'s
falsy-`start` check) instead of returning the "no element" result. -/
theorem C8_counterexample :
    ES.rPop ⟨[(indexKey (su "k"), .jsonArrIdx ⟨0, 0, []⟩)], true, []⟩ (su "k") true
        = .error .typeError ∧
    ES.lPop ⟨[(indexKey (su "k"), .jsonArrIdx ⟨0, 0, []⟩)], true, []⟩ (su "k") true
        = .error .typeError := by
  decide

/-- C8 (corrected): popping an Absent array (no record under `K + ".index"`)
or an Empty one whose stored index has `end = start` with `start ≠ 0`
returns `undefined` — an explicit "no value" result, not a fault — and
leaves the storage (and the whole instance state) unchanged.  The case the
counterexample excludes is an empty index with `start = 0`, where
`getArrayIndex`'s truthiness check throws. -/
theorem C8_pop_empty_undefined (e : ES) (K : Str) (dr : Bool)
    (h : storeGet e.store (indexKey K) = none ∨
      ∃ a : ArrIdx, storeGet e.store (indexKey K) = some (.jsonArrIdx a) ∧
        a.end_ = a.start ∧ a.start ≠ 0) :
    ES.rPop e K dr = .ok (.undefined, e) ∧ ES.lPop e K dr = .ok (.undefined, e) := by
  have hpop : ∀ a' : ArrIdx, a'.end_ = a'.start →
      ES.assertMultiArray e K false = .ok (a', e) →
      ES.rPop e K dr = .ok (.undefined, e) ∧ ES.lPop e K dr = .ok (.undefined, e) := by
    intro a' heq hassert
    have hbeq : (a'.end_ == a'.start) = true := beq_iff_eq.mpr heq
    constructor
    · unfold ES.rPop
      rw [hassert, exceptBind_ok]
      simp [hbeq]
      rfl
    · unfold ES.lPop
      rw [hassert, exceptBind_ok]
      simp [hbeq]
      rfl
  rcases h with h1 | ⟨a, ha1, ha2, ha3⟩
  · have hga : ES.getArrayIndex e K = .ok none := by
      unfold ES.getArrayIndex
      simp only [psGet, h1]
      rfl
    have hassert : ES.assertMultiArray e K false = .ok (⟨0, 0, []⟩, e) := by
      unfold ES.assertMultiArray
      rw [hga, exceptBind_ok]
      rfl
    exact hpop ⟨0, 0, []⟩ rfl hassert
  · have hga : ES.getArrayIndex e K = .ok (some (.arrIdxRec a)) := by
      have hps : psGet e.store (indexKey K) true .undefined = .arrIdxRec a := by
        simp only [psGet, ha1]
        rfl
      have htr : (JSVal.arrIdxRec a).startF.truthy = true := by
        show (a.start != 0) = true
        simpa using ha3
      unfold ES.getArrayIndex
      rw [hps]
      simp only [htr]
      rfl
    have hassert : ES.assertMultiArray e K false
        = .ok ({ a with start := 0, end_ := 0 }, e) := by
      unfold ES.assertMultiArray
      rw [hga, exceptBind_ok]
      have hbeq : (a.end_ == a.start) = true := beq_iff_eq.mpr ha2
      simp [JSVal.asArrIdx, hbeq]
      rfl
    exact hpop { a with start := 0, end_ := 0 } rfl hassert

/-- Witness for C8: pops on a key with no array record at all. -/
theorem C8_pop_empty_undefined_witness :
    storeGet esEmpty.store (indexKey (su "k")) = none ∧
    ES.rPop esEmpty (su "k") true = .ok (.undefined, esEmpty) ∧
    ES.lPop esEmpty (su "k") true = .ok (.undefined, esEmpty) :=
  ⟨rfl,
    (C8_pop_empty_undefined esEmpty (su "k") true (Or.inl rfl)).1,
    (C8_pop_empty_undefined esEmpty (su "k") true (Or.inl rfl)).2⟩

/-- C9 (confirmed): for a key with no index record and any falsy value,
`set(K, v)` only deletes the bare key (after the drop attempt) — it writes
no index record and no chunk keys — and a subsequent `get(K, true, d)`
returns the default `d`. -/
theorem C9_falsy_set_deletes (e : ES) (K : Str) (v d : JSVal) (cs : Nat)
    (hfalsy : v.truthy = false)
    (hidx : storeGet e.store (indexKey K) = none) :
    ES.set e K v cs = .ok (psDrop e K) ∧
    ES.get (psDrop e K) K true d = .ok d := by
  have hga : ES.getArrayIndex e K = .ok none := by
    unfold ES.getArrayIndex
    simp only [psGet, hidx]
    rfl
  have hgi : ES.getIndex e K = .ok none := by
    unfold ES.getIndex
    simp only [psGet, hidx]
    rfl
  have hisarr : ES.isArray e K = .ok false := by
    unfold ES.isArray
    rw [hga, exceptBind_ok]
    rfl
  have hdrop : ES.drop e K = .ok (psDrop e K) := by
    unfold ES.drop
    rw [hisarr, exceptBind_ok]
    simp only [Bool.false_eq_true, if_false]
    rw [hgi, exceptBind_ok]
    rfl
  have hset : ES.set e K v cs = .ok (psDrop e K) := by
    unfold ES.set
    rw [hgi, exceptBind_ok]
    simp only [hfalsy, Bool.not_false, Bool.or_true, if_true, Option.isSome_none]
    rw [hdrop, exceptBind_ok]
    rfl
  have hget : ES.get (psDrop e K) K true d = .ok d := by
    unfold ES.get
    by_cases hreg : endsInDotNum K = true
    · simp only [hreg, if_true]
      have hbare : storeGet (psDrop e K).store K = none := storeGet_del_self e.store K
      simp only [psGet, hbare]
      rfl
    · simp only [hreg, if_false]
      have hidx2 : storeGet (psDrop e K).store (indexKey K) = none := by
        show storeGet (storeDel e.store K) (indexKey K) = none
        rw [storeGet_del_ne e.store K (indexKey K) (indexKey_ne_self K)]
        exact hidx
      have hgi2 : ES.getIndex (psDrop e K) K = .ok none := by
        unfold ES.getIndex
        simp only [psGet, hidx2]
        rfl
      rw [hgi2, exceptBind_ok]
      rfl
  exact ⟨hset, hget⟩

/-- Witness for C9: `set("k", 0)` on the empty storage, then `get`. -/
theorem C9_falsy_set_deletes_witness :
    (JSVal.num 0).truthy = false ∧
    storeGet esEmpty.store (indexKey (su "k")) = none ∧
    ES.set esEmpty (su "k") (.num 0) MAX_BYTE_SIZE = .ok (psDrop esEmpty (su "k")) ∧
    ES.get (psDrop esEmpty (su "k")) (su "k") true (.num 9) = .ok (.num 9) :=
  ⟨by decide, rfl,
    (C9_falsy_set_deletes esEmpty (su "k") (.num 0) (.num 9) MAX_BYTE_SIZE
      (by decide) rfl).1,
    (C9_falsy_set_deletes esEmpty (su "k") (.num 0) (.num 9) MAX_BYTE_SIZE
      (by decide) rfl).2⟩

/-- C10 counterexample: the cached value read back after `set` + inherited
`drop` is `deserialize(serialize(v))`, not `v` itself: for `v = "0"` the
read returns the number `0`. -/
theorem C10_counterexample :
    CS.get (CS.drop (CS.set ⟨[], []⟩ (su "k") (.str (su "0"))) (su "k"))
        (su "k") true (.num 7) = .num 0 ∧
      JSVal.num 0 ≠ .str (su "0") := by
  decide

/-- C10 (corrected): after `CachedStorage.set(K, v)` (v truthy) and the
inherited `drop(K)`, `get(K, ..., d)` is served from the in-memory cache —
it returns `deserialize(serialize(v))` (equal to `v` whenever serialization
round-trips), not the default `d`; whereas `remove(K)` clears both the
backend and the cache, after which `get` returns `d`. -/
theorem C10_cache_survives_drop (c : CS) (K : Str) (v d : JSVal)
    (hv : v.truthy = true) :
    ∃ sv, serialize v = some sv ∧
      CS.get (CS.drop (CS.set c K v) K) K true d = deserializeS sv ∧
      CS.get (CS.remove (CS.set c K v) K) K true d = d := by
  obtain ⟨sv, hsv⟩ := serialize_some_of_truthy hv
  refine ⟨sv, hsv, ?_, ?_⟩
  · simp only [CS.set, hsv, CS.drop, CS.get, cacheGet_set_self]
    rfl
  · simp only [CS.set, hsv, CS.remove, CS.get, cacheGet_del_self, storeGet_del_self]

/-- Witness for C10: `v = 5`, whose serialization round-trips, so the
post-drop read returns `5` while the post-remove read returns the default. -/
theorem C10_cache_survives_drop_witness :
    (JSVal.num 5).truthy = true ∧
    (∃ sv, serialize (JSVal.num 5) = some sv ∧
      CS.get (CS.drop (CS.set ⟨[], []⟩ (su "k") (.num 5)) (su "k")) (su "k") true (.num 7)
        = deserializeS sv ∧
      CS.get (CS.remove (CS.set ⟨[], []⟩ (su "k") (.num 5)) (su "k")) (su "k") true (.num 7)
        = .num 7) :=
  ⟨by decide, C10_cache_survives_drop ⟨[], []⟩ (su "k") (.num 5) (.num 7) (by decide)⟩
